import Mathlib

/-!
Shallow embedding of `ics2csv.py` (carpool accounting script).

Modelling conventions, fixed once for the whole file:

* Python `datetime` values are modelled as whole minutes since an arbitrary
  epoch (`ℤ`).  `dt.date()` is floor division by the 1440 minutes of one day
  (`Int.fdiv`, Python's `//` semantics), `timedelta.days` of a difference is
  likewise `Int.fdiv` of the minute difference, `dt.hour` is the minute of the
  day divided by 60, and `datetime.date.today()` is an explicit `today : ℤ`
  calendar-day parameter.  Differences of `datetime.date` values are exact day
  counts, i.e. differences of the floor-divided values.
* Python `dict` / `OrderedDict` values are association lists
  (`List (key × value)`); item assignment `d[k] = v` updates the first (and,
  for lists built through this operation, only) binding in place, keeping its
  position, and appends otherwise, which is exactly the insertion-ordered
  behaviour of a Python dict whose keys are unique.
* The YAML configuration file (`sample/carpool-anon.yaml`) is not part of the
  sources; the values read from it (`validamlocs`, `validpmlocs`, `calfile`)
  are therefore passed around as an explicit `Config` record.  The constants
  hard-coded in the script (`CFG_TRIPCOST`, default locations) keep their
  literal values.
* Numbers are exact rationals (`ℚ`); the script only ever divides an integer
  trip cost by a participant count.
* A raised-and-uncaught Python exception is modelled by `Except.error` /
  `Option.none`; strings attached to errors mirror the `ValueError` messages.
* `re.Pattern.split(string, re.UNICODE)` passes `re.UNICODE = 32` as the
  *maxsplit* argument, so the splits performed by `icsparse_event_topic_split`
  are capped at 32; `reSplit` reproduces this with a fuel argument.  Character
  classes are interpreted over ASCII (`[^a-zA-Z]` as `¬ Char.isAlpha`, `\W` as
  `¬ (Char.isAlphanum ∨ · = '_')`), which is exact for ASCII input.
-/

namespace Ics2csv

/-- `matchesAt needle hay`: `needle` occurs at the very start of `hay`. -/
def matchesAt : List Char → List Char → Bool
  | [], _ => true
  | _ :: _, [] => false
  | a :: as, b :: bs => a == b && matchesAt as bs

/-- `hasSub needle hay`: `needle` occurs contiguously somewhere in `hay`
(Python's `needle in hay` on strings). -/
def hasSub (needle : List Char) : List Char → Bool
  | [] => matchesAt needle []
  | c :: rest => matchesAt needle (c :: rest) || hasSub needle rest

/-- Python `needle in hay` for strings. -/
def strContains (hay needle : String) : Bool :=
  hasSub needle.toList hay.toList

/-- Python `str.lower()` (ASCII case folding, as in the script's input). -/
def lowerL (cs : List Char) : List Char := cs.map Char.toLower

/-- Python `str.split()` with no argument on a character list: the maximal
runs of non-whitespace characters (leading/trailing/repeated whitespace
produces no empty pieces).  `cur` accumulates the current run in reverse. -/
def wsTokensAux (cur : List Char) : List Char → List (List Char)
  | [] => match cur with
    | [] => []
    | _ :: _ => [cur.reverse]
  | c :: rest =>
    if c.isWhitespace then
      match cur with
      | [] => wsTokensAux [] rest
      | _ :: _ => cur.reverse :: wsTokensAux [] rest
    else wsTokensAux (c :: cur) rest

/-- Python `summary.split()`. -/
def wsTokens (s : String) : List (List Char) := wsTokensAux [] s.toList

/-- `re.split` with a pattern of the form `P+` for a character class `P`
(given as the predicate `p`), with a *maxsplit* bound given as fuel: each
maximal run of `p`-characters consumes one split; once the fuel is exhausted
the remainder of the string is returned verbatim as the final piece. -/
def reSplit (p : Char → Bool) : Nat → List Char → List (List Char)
  | 0, s => [s]
  | fuel + 1, s =>
    let tok := s.takeWhile (fun c => !p c)
    let rest := s.dropWhile (fun c => !p c)
    match rest with
    | [] => [tok]
    | _ :: _ => tok :: reSplit p fuel (rest.dropWhile p)

/-- `RE_TOPIC_SPLIT_CARPOOL = re.compile('[^a-zA-Z]+')`: a separator character
is anything that is not an ASCII letter. -/
def RE_TOPIC_SPLIT_CARPOOL (c : Char) : Bool := !c.isAlpha

/-- `RE_TOPIC_SPLIT_TRANSFER = re.compile('[\W]+')`: a separator character is
anything that is not a word character (letter, digit or underscore). -/
def RE_TOPIC_SPLIT_TRANSFER (c : Char) : Bool := !(c.isAlphanum || c == '_')

/-- `icsparse_event_topic_split(topic, resplit)`: lowercase the topic, split it
on runs of separator characters (the call site passes `re.UNICODE = 32` as
*maxsplit*, hence the fuel 32), and drop empty pieces (`filter(None, words)`). -/
def icsparse_event_topic_split (topic : String) (resplit : Char → Bool) : List String :=
  ((reSplit resplit 32 (lowerL topic.toList)).map (fun cs => String.mk cs)).filter
    (fun w => w != "")

/-- `CFG_TRIPCOST = 16` (hard-coded in the script, not read from the YAML). -/
def CFG_TRIPCOST : ℚ := 16

/-- `CFG_DEFAULTAMLOC = "UNKNOWN-EVERDINGEN"`. -/
def CFG_DEFAULTAMLOC : String := "UNKNOWN-EVERDINGEN"

/-- `CFG_DEFAULTPMLOC = "UNKNOWN-B7"`. -/
def CFG_DEFAULTPMLOC : String := "UNKNOWN-B7"

/-- The values the script reads from its YAML configuration file (the file
itself is not among the sources, so they stay parameters): the ordered lists of
valid morning and afternoon carpool locations. -/
structure Config where
  validamlocs : List String
  validpmlocs : List String
deriving DecidableEq

/-- The minute-of-day resolution of the timestamp model. -/
def minutesPerDay : ℤ := 1440

/-- Python `dt.date()` for a minute timestamp: floor division by one day. -/
def dateOf (t : ℤ) : ℤ := Int.fdiv t minutesPerDay

/-- Python `dt.hour` for a minute timestamp. -/
def hourOf (t : ℤ) : ℤ := Int.fdiv (Int.emod t minutesPerDay) 60

/-- A parsed calendar event: the dict stored under the event's start time.
`carpool` carries `driver`, `passengers`, `origin` and `tripcost`; `transfer`
carries `debtor`, `creditor` and `amount`.  NOTE: the script stores the
transfer amount as the raw token *string* (it never converts it to a number),
so `amount` is a `String` here. -/
inductive EventData where
  | carpool (driver : String) (passengers : List String) (origin : String) (tripcost : ℚ)
  | transfer (debtor : String) (creditor : String) (amount : String)
deriving DecidableEq

/-- Discriminator for the `'type': 'carpool'` tag. -/
def EventData.isCarpool : EventData → Bool
  | .carpool .. => true
  | .transfer .. => false

/-- `icsparse_event_get_location(location, time)`: choose the AM or PM valid
location list by the hour, then return the first valid location occurring as a
substring of the lowercased raw location, or the AM/PM default sentinel. -/
def icsparse_event_get_location (cfg : Config) (location : String) (time : ℤ) : String :=
  let pick := if hourOf time < 12 then (cfg.validamlocs, CFG_DEFAULTAMLOC)
              else (cfg.validpmlocs, CFG_DEFAULTPMLOC)
  let loc := lowerL location.toList
  match pick.1.find? (fun v => hasSub v.toList loc) with
  | some v => v
  | none => pick.2

/-- `icsparse_event(c)`: classify the summary by its first whitespace word
(`summary.split()[0].lower()`; an empty summary raises `IndexError`), then
tokenize.  A carpool needs at least a driver token after the magic word
(`words[1]` raising `IndexError` is re-raised as `ValueError`); a transfer
needs exactly three tokens after the magic word (the tuple unpacking
`words[1:]` raises otherwise).  The transfer amount is kept as the raw string
token. -/
def icsparse_event (cfg : Config) (summary location : String) (time : ℤ) :
    Except String EventData :=
  match wsTokens summary with
  | [] => .error "IndexError: list index out of range"
  | w :: _ =>
    let event_type := String.mk (lowerL w)
    if strContains event_type "carpool" then
      match icsparse_event_topic_split summary RE_TOPIC_SPLIT_CARPOOL with
      | _ :: driver :: passengers =>
        .ok (.carpool driver passengers (icsparse_event_get_location cfg location time)
          CFG_TRIPCOST)
      | _ => .error "Carpool event syntax not understood"
    else if strContains event_type "transfer" then
      match icsparse_event_topic_split summary RE_TOPIC_SPLIT_TRANSFER with
      | [_, debtor, creditor, amount] => .ok (.transfer debtor creditor amount)
      | _ => .error ("Transfer event syntax not understood: " ++ summary)
    else .error ("Event syntax not understood: " ++ summary)

/-- The ledger: the insertion-ordered mapping from start timestamp to parsed
event that the script keeps in an `OrderedDict`. -/
abbrev Ledger := List (ℤ × EventData)

/-- Python dict item assignment `d[k] = v` on an insertion-ordered dict:
update the first binding of `k` in place (keeping its position), else append.
Dicts built from `[]` through this operation never hold a key twice, so the
"first" binding is the only one. -/
def odInsert (d : Ledger) (k : ℤ) (v : EventData) : Ledger :=
  match d with
  | [] => [(k, v)]
  | kv :: rest => if kv.1 = k then (k, v) :: rest else kv :: odInsert rest k v

/-- One raw calendar component as handed over by the `icalendar` walk: its
component name, `TRANSP` property (`""` when absent, as `c.get` returns
`None`), `SUMMARY`, `LOCATION` and `DTSTART`. -/
structure RawEvent where
  name : String
  transp : String
  summary : String
  location : String
  dtstart : ℤ
deriving DecidableEq

/-- The loop body of `normalize_ics`: walk the components, and for every
`VEVENT` that is not `TRANSPARENT` store `icsparse_event(c)` under its start
time.  There is no `try` around the parse call: a `ValueError` raised for one
event propagates and aborts the whole walk, which `Except.error` models. -/
def normalize_go (cfg : Config) (events : Ledger) : List RawEvent → Except String Ledger
  | [] => .ok events
  | c :: rest =>
    if c.name == "VEVENT" && c.transp != "TRANSPARENT" then
      match icsparse_event cfg c.summary c.location c.dtstart with
      | .ok ev => normalize_go cfg (odInsert events c.dtstart ev) rest
      | .error e => .error e
    else normalize_go cfg events rest

/-- `normalize_ics`: normalize the calendar's components into the ordered
timestamp → event mapping. -/
def normalize_ics (cfg : Config) (components : List RawEvent) : Except String Ledger :=
  normalize_go cfg [] components

/-- The running balance dict of `carpool_account`, person → amount. -/
abbrev Balance := List (String × ℚ)

/-- Python `balance.get(k, 0)`. -/
def bget (b : Balance) (k : String) : ℚ :=
  match b with
  | [] => 0
  | kv :: rest => if kv.1 = k then kv.2 else bget rest k

/-- Python `balance[k] = v` (update in place or append, as `odInsert`). -/
def bset (b : Balance) (k : String) (v : ℚ) : Balance :=
  match b with
  | [] => [(k, v)]
  | kv :: rest => if kv.1 = k then (k, v) :: rest else kv :: bset rest k v

/-- `sum(balance.values())`. -/
def sumVals (b : Balance) : ℚ := (b.map (fun kv => kv.2)).sum

/-- The body of `carpool_account`'s loop for one event.  For a carpool the
driver gains `tripcost - tripcost/npers` and each passenger loses
`tripcost/npers` with `npers = 1 + len(passengers)`.  For a transfer the
script computes `balance.get(creditor, 0) + v['amount']` — but `amount` is the
raw string token the parser stored, so this `int + str` raises `TypeError`,
modelled as `none`. -/
def applyEvent (b : Balance) (e : EventData) : Option Balance :=
  match e with
  | .carpool driver passengers _ tripcost =>
    let npers : ℚ := 1 + (passengers.length : ℚ)
    let b1 := bset b driver (bget b driver + tripcost - tripcost / npers)
    some (passengers.foldl (fun acc p => bset acc p (bget acc p - tripcost / npers)) b1)
  | .transfer _ _ _ => none

/-- Recursion over the ledger items for `carpool_account`. -/
def carpool_account_go (b : Balance) : Ledger → Option Balance
  | [] => some b
  | kv :: rest =>
    match applyEvent b kv.2 with
    | some b1 => carpool_account_go b1 rest
    | none => none

/-- `carpool_account(allevents)`: fold the per-event balance update over the
ledger, starting from the empty dict. -/
def carpool_account (allevents : Ledger) : Option Balance :=
  carpool_account_go [] allevents

/-- First loop of `updatedata`: from the previously persisted ledger keep
exactly the entries whose date is strictly more than `maxage` days before
today (`(n - edate.date()).days > maxage`), in their stored order. -/
def keepOld (today maxage : ℤ) (prev : Ledger) : Ledger :=
  prev.foldl (fun acc kv =>
    if today - dateOf kv.1 > maxage then odInsert acc kv.1 kv.2 else acc) []

/-- Second loop of `updatedata`: add back every new event at most `maxage`
days old (`(n - k.date()).days <= maxage`), overwriting on key conflict. -/
def addNew (today maxage : ℤ) (newevents : Ledger) (acc : Ledger) : Ledger :=
  newevents.foldl (fun a kv =>
    if today - dateOf kv.1 ≤ maxage then odInsert a kv.1 kv.2 else a) acc

/-- `updatedata(newevents, file, maxage)`: when the ledger file is readable
(`prev = some p`) keep the sufficiently old previous entries and overlay the
recent new events; a `FileNotFoundError` (`prev = none`) makes the new events
the whole ledger.  `today` is `datetime.date.today()`. -/
def updatedata (newevents : Ledger) (prev : Option Ledger) (today maxage : ℤ) : Ledger :=
  match prev with
  | some p => addNew today maxage newevents (keepOld today maxage p)
  | none => newevents

/-- One event tuple as consumed by `find_dest`: `event[0]` the driver,
`event[1]` the passengers, `event[2]` the departure location, `event[3]` the
start time. -/
structure CEvent where
  driver : String
  passengers : List String
  origin : String
  time : ℤ
deriving DecidableEq

/-- Stable insertion into a time-sorted list (earlier input goes first among
equal times). -/
def insertByTime (e : CEvent) : List CEvent → List CEvent
  | [] => [e]
  | f :: fs => if e.time ≤ f.time then e :: f :: fs else f :: insertByTime e fs

/-- `sorted(lastevents, key=lambda event: event[3])`: Python's sort is stable,
and any stable sort by the time key computes the same list as this insertion
sort. -/
def sortByTime (l : List CEvent) : List CEvent :=
  l.foldr insertByTime []

/-- The day buckets of `find_dest`: `number_days = (t_last - t_first).days + 2`
and `day_list = [date(t_first) - 1 + x for x in range(number_days)]`. -/
def dayListFrom (tFirst tLast : ℤ) : List ℤ :=
  (List.range (Int.fdiv (tLast - tFirst) minutesPerDay + 2).toNat).map
    (fun (x : ℕ) => dateOf tFirst - 1 + (x : ℤ))

/-- `set(event[0][0] for event in events_on_day)`: the distinct drivers of the
day.  Python iterates the set in an unspecified order; since the per-driver
groups are disjoint and each event index receives at most one pair, the final
ID → pair assignment does not depend on that order, and first-occurrence order
is used here. -/
def uniqueDrivers (eventsOnDay : List (CEvent × ℕ)) : List String :=
  (eventsOnDay.map (fun e => e.1.driver)).foldl
    (fun acc d => if d ∈ acc then acc else acc ++ [d]) []

/-- The per-driver body of `find_dest`'s day loop: when the driver has exactly
two events that day, the earlier event (ID `startID`) gets `[start, dest]`
appended and the later one (ID `destID`) gets `[dest, start]`, where `start`
and `dest` are the two departure locations; one event or more than two events
only print diagnostics and assign nothing. -/
def pairsForDriver (eventsOnDay : List (CEvent × ℕ)) (driver : String) :
    List (ℕ × String × String) :=
  match eventsOnDay.filter (fun e => e.1.driver == driver) with
  | [a, b] => [(a.2, (a.1.origin, b.1.origin)), (b.2, (b.1.origin, a.1.origin))]
  | _ => []

/-- `find_dest(lastevents)`: sort by time (`sorted_events[-1]` raises
`IndexError` on an empty input, modelled as `none`), bucket by calendar day
over `day_list`, group each bucket by driver, and collect the
`[ID, [start, dest]]` pairs; finally each event at index `ID` gets its pair
appended.  The result pairs each time-sorted event with its appended
`[start, dest]` data, `none` when no pair was assigned to its index. -/
def find_dest (lastevents : List CEvent) :
    Option (List (CEvent × Option (String × String))) :=
  let sorted := sortByTime lastevents
  match sorted.head?, sorted.getLast? with
  | some e0, some eN =>
    let days := dayListFrom e0.time eN.time
    let indexed := sorted.zip (List.range sorted.length)
    let pairs := days.foldl (fun acc day =>
      let eventsOnDay := indexed.filter (fun e => dateOf e.1.time == day)
      (uniqueDrivers eventsOnDay).foldl
        (fun acc2 d => acc2 ++ pairsForDriver eventsOnDay d) acc) []
    some (indexed.map (fun e => (e.1, (pairs.find? (fun pr => pr.1 == e.2)).map (fun pr => pr.2))))
  | _, _ => none

/-- A sample configuration (the YAML values are anonymous sample data; only
the shape matters to the theorems below). -/
def cfg0 : Config := ⟨["nieuwegein", "houten"], ["b7"]⟩

/-- A sample carpool event value. -/
def ev0 : EventData := .carpool "peter" ["martin"] "nieuwegein" 16

/-- A second sample carpool event value. -/
def ev1 : EventData := .carpool "martin" ["peter"] "houten" 16

/-- A sample new-event feed whose recent entry precedes its stale entry
(minute 43200 is day 30, minute 0 is day 0). -/
def new0 : Ledger := [(43200, ev0), (0, ev1)]

/-- A sample `find_dest` event at 23:00 of day 0. -/
def evA : CEvent := ⟨"peter", [], "a", 1380⟩

/-- A sample `find_dest` event at 01:00 of day 1 (25 minutes ... 120 minutes
after `evA`, on the next calendar day). -/
def evB : CEvent := ⟨"peter", [], "b", 1500⟩

/-- A raw component whose summary has no recognized magic word. -/
def rawBad : RawEvent := ⟨"VEVENT", "", "Meeting with Peter", "office", 480⟩

/-- A raw component with a well-formed carpool summary. -/
def rawGood : RawEvent := ⟨"VEVENT", "", "Carpool peter martin", "Nieuwegein", 1020⟩

/-- C10: applied to an empty event sequence, `find_dest` fails (the script
evaluates `sorted_events[-1]` on the empty sorted list and raises
`IndexError`) instead of returning an empty result: the empty input is outside
the function's domain. -/
theorem find_dest_empty_input_fails : find_dest ([] : List CEvent) = none := rfl

/-- C7: the Topic Parser does *not* parse the transfer amount into a number —
the record keeps the raw third token as a string, a non-numeric amount token
is accepted without any error, and only a wrong token count fails; the string
amount then makes the balance computation of `carpool_account` impossible
(`balance.get(...) + amount` is `int + str`, a `TypeError`). -/
theorem icsparse_transfer_amount_kept_as_string :
    icsparse_event cfg0 "Transfer alice bob 10" "x" 480 =
      .ok (.transfer "alice" "bob" "10") ∧
    icsparse_event cfg0 "Transfer alice bob ten" "x" 480 =
      .ok (.transfer "alice" "bob" "ten") ∧
    icsparse_event cfg0 "Transfer alice bob" "x" 480 =
      .error "Transfer event syntax not understood: Transfer alice bob" ∧
    carpool_account [(0, .transfer "alice" "bob" "10")] = none :=
  ⟨rfl, rfl, rfl, rfl⟩

/-- C2 counterexample: a batch with one unparseable summary followed by a
well-formed carpool event produces no mapping at all — the per-event
`ValueError` aborts `normalize_ics`, so the good event does not appear
anywhere (alone, the same good event normalizes fine). -/
theorem normalize_ics_failsoft_counterexample :
    normalize_ics cfg0 [rawBad, rawGood] =
      .error "Event syntax not understood: Meeting with Peter" ∧
    normalize_ics cfg0 [rawGood] =
      .ok [(1020, .carpool "peter" ["martin"] "UNKNOWN-B7" CFG_TRIPCOST)] :=
  ⟨rfl, rfl⟩

/-- C5 counterexample: on a first run (no previous ledger) the merge returns
`newevents` unchanged, but re-merging the same events into that result
reorders them (kept old entries come first), so merging twice does not yield
the same ledger as merging once. -/
theorem updatedata_idempotent_counterexample :
    updatedata new0 (some (updatedata new0 none 40 30)) 40 30 ≠
      updatedata new0 none 40 30 := by decide

/-- C6 counterexample: with `today = 40` and `maxage = 30`, the previous
ledger's entry at minute 14400 (day 10) is dated exactly 30 days before
today; absent from the new feed, it is dropped from the merge — not
retained. -/
theorem updatedata_retention_boundary_counterexample :
    (40 : ℤ) - dateOf 14400 = 30 ∧
    updatedata [] (some [(14400, ev0)]) 40 30 = [] := by
  exact ⟨by decide, rfl⟩

/-- C8 counterexample: the trailing numeric token "+1" contains no ASCII
letter, so the carpool tokenization treats all of it as separator characters
and drops it: the passengers are just `["martin"]`, with no "+1" or "1"
token. -/
theorem carpool_numeric_token_dropped_counterexample :
    icsparse_event cfg0 "carpool peter martin +1" "x" 480 =
      .ok (.carpool "peter" ["martin"] "UNKNOWN-EVERDINGEN" CFG_TRIPCOST) ∧
    "1" ∉ (["martin"] : List String) ∧ "+1" ∉ (["martin"] : List String) :=
  ⟨rfl, by decide, by decide⟩

/-- C9 counterexample: nothing stops the driver token from reappearing later
in the title: `"carpool peter martin peter"` parses to driver `"peter"` with
`"peter"` also among the passengers. -/
theorem carpool_driver_repeated_counterexample :
    icsparse_event cfg0 "carpool peter martin peter" "x" 480 =
      .ok (.carpool "peter" ["martin", "peter"] "UNKNOWN-EVERDINGEN" CFG_TRIPCOST) ∧
    "peter" ∈ (["martin", "peter"] : List String) :=
  ⟨rfl, by decide⟩

/-- C4 counterexample: for events at 23:00 of day 0 (`evA`, minute 1380) and
01:00 of day 1 (`evB`, minute 1500) the day-bucket list is `[-1, 0]`: it
reaches neither one day after the latest event's date (day 2) nor even the
latest event's own date (day 1), and `find_dest` consequently assigns no
destination to either event of this same-driver round trip. -/
theorem find_dest_day_buckets_counterexample :
    dayListFrom evA.time evB.time = [-1, 0] ∧
    dateOf evB.time = 1 ∧
    (1 : ℤ) ∉ dayListFrom evA.time evB.time ∧
    (2 : ℤ) ∉ dayListFrom evA.time evB.time ∧
    find_dest [evA, evB] = some [(evA, none), (evB, none)] := by
  refine ⟨by decide, by decide, by decide, by decide, rfl⟩

/-- Updating one key changes the balance total by new value minus old value. -/
theorem sumVals_bset (b : Balance) (k : String) (v : ℚ) :
    sumVals (bset b k v) = sumVals b + v - bget b k := by
  induction b with
  | nil => simp [bset, bget, sumVals]
  | cons kv rest ih =>
    by_cases h : kv.1 = k
    · simp only [bset, bget, if_pos h, sumVals, List.map_cons, List.sum_cons]
      ring
    · simp only [bset, bget, if_neg h, sumVals, List.map_cons, List.sum_cons] at *
      rw [ih]
      ring

/-- Each passenger update subtracts the share from the total. -/
theorem sumVals_passengers_foldl (ps : List String) (c : ℚ) (acc : Balance) :
    sumVals (ps.foldl (fun a p => bset a p (bget a p - c)) acc) =
      sumVals acc - (ps.length : ℚ) * c := by
  induction ps generalizing acc with
  | nil => simp
  | cons p rest ih =>
    simp only [List.foldl_cons, List.length_cons, ih, sumVals_bset]
    push_cast
    ring

/-- A carpool event leaves the balance total unchanged: the driver gains
`tripcost - tripcost/npers`, the `npers - 1` passengers each lose
`tripcost/npers`. -/
theorem sumVals_applyEvent_carpool (b b1 : Balance) (d : String) (ps : List String)
    (o : String) (c : ℚ) (h : applyEvent b (.carpool d ps o c) = some b1) :
    sumVals b1 = sumVals b := by
  simp only [applyEvent, Option.some.injEq] at h
  subst h
  rw [sumVals_passengers_foldl, sumVals_bset]
  have hn : (1 : ℚ) + (ps.length : ℚ) ≠ 0 := by positivity
  field_simp
  ring

/-- Processing only carpool events always succeeds and preserves the balance
total. -/
theorem carpool_account_go_sum (l : Ledger) :
    ∀ b : Balance, (∀ kv ∈ l, kv.2.isCarpool = true) →
      ∃ b1, carpool_account_go b l = some b1 ∧ sumVals b1 = sumVals b := by
  induction l with
  | nil => exact fun b _ => ⟨b, rfl, rfl⟩
  | cons kv rest ih =>
    intro b hall
    have hk : kv.2.isCarpool = true := hall kv (List.mem_cons_self kv rest)
    match hkv : kv.2 with
    | .transfer d c a => rw [hkv] at hk; simp [EventData.isCarpool] at hk
    | .carpool d ps o c =>
      have happ : applyEvent b (.carpool d ps o c) = some
          (ps.foldl (fun a p => bset a p (bget a p - c / (1 + (ps.length : ℚ)))) (bset b d
            (bget b d + c - c / (1 + (ps.length : ℚ))))) := rfl
      obtain ⟨b1, hgo, hsum⟩ := ih
        (ps.foldl (fun a p => bset a p (bget a p - c / (1 + (ps.length : ℚ))))
          (bset b d (bget b d + c - c / (1 + (ps.length : ℚ)))))
        (fun kv' hm => hall kv' (List.mem_cons_of_mem kv hm))
      refine ⟨b1, ?_, ?_⟩
      · simp only [carpool_account_go, hkv, happ]
        exact hgo
      · rw [hsum]
        exact sumVals_applyEvent_carpool b _ d ps o c happ

/-- C1: for a ledger that contains only carpool events, `carpool_account`
succeeds and its balances sum to exactly zero: each event credits the driver
`tripcost - tripcost/npers` and debits each of the `npers - 1` passengers
`tripcost/npers`, preserving a zero total. -/
theorem carpool_account_only_carpool_zero_sum (l : Ledger)
    (h : ∀ kv ∈ l, kv.2.isCarpool = true) :
    ∃ b, carpool_account l = some b ∧ sumVals b = 0 := by
  obtain ⟨b, hgo, hsum⟩ := carpool_account_go_sum l [] h
  exact ⟨b, hgo, by simpa [sumVals] using hsum⟩

/-- C1 witness: a concrete two-event all-carpool ledger. -/
theorem carpool_account_only_carpool_zero_sum_witness :
    ∃ b, carpool_account [(0, ev0), (1440, ev1)] = some b ∧ sumVals b = 0 :=
  carpool_account_only_carpool_zero_sum [(0, ev0), (1440, ev1)] (by decide)

/-- Whatever has been accumulated, one real (non-transparent `VEVENT`)
component whose summary fails to parse makes the whole walk fail. -/
theorem normalize_go_error_of_mem (cfg : Config) (comps : List RawEvent) :
    ∀ acc : Ledger,
      (∃ c ∈ comps, (c.name == "VEVENT" && c.transp != "TRANSPARENT") = true ∧
        ∃ msg, icsparse_event cfg c.summary c.location c.dtstart = .error msg) →
      ∃ e, normalize_go cfg acc comps = .error e := by
  induction comps with
  | nil =>
    rintro acc ⟨c, hc, _⟩
    cases hc
  | cons c0 rest ih =>
    rintro acc ⟨c, hc, hreal, msg, herr⟩
    rcases List.mem_cons.mp hc with rfl | hmem
    · refine ⟨msg, ?_⟩
      simp only [normalize_go, hreal, if_pos, herr]
    · by_cases h0 : (c0.name == "VEVENT" && c0.transp != "TRANSPARENT") = true
      · cases hp : icsparse_event cfg c0.summary c0.location c0.dtstart with
        | ok ev =>
          simp only [normalize_go, h0, if_pos, hp]
          exact ih _ ⟨c, hmem, hreal, msg, herr⟩
        | error e =>
          refine ⟨e, ?_⟩
          simp only [normalize_go, h0, if_pos, hp]
      · simp only [normalize_go, if_neg h0]
        exact ih acc ⟨c, hmem, hreal, msg, herr⟩

/-- C2 (amended): a parse failure of a single real event's summary *is* fatal
to the whole batch — `normalize_ics` propagates the `ValueError` and returns
no mapping at all, so no event of the batch appears in any result. -/
theorem normalize_ics_single_failure_aborts_batch (cfg : Config) (comps : List RawEvent)
    (h : ∃ c ∈ comps, (c.name == "VEVENT" && c.transp != "TRANSPARENT") = true ∧
      ∃ msg, icsparse_event cfg c.summary c.location c.dtstart = .error msg) :
    ∃ e, normalize_ics cfg comps = .error e :=
  normalize_go_error_of_mem cfg comps [] h

/-- C2 witness: the concrete two-event batch with a failing first summary. -/
theorem normalize_ics_single_failure_aborts_batch_witness :
    ∃ e, normalize_ics cfg0 [rawBad, rawGood] = .error e :=
  normalize_ics_single_failure_aborts_batch cfg0 [rawBad, rawGood]
    ⟨rawBad, by decide, by decide, "Event syntax not understood: Meeting with Peter", rfl⟩

/-- C4 (amended): the day buckets processed by `find_dest` cover exactly the
dates from one day before the earliest event's date up to the earliest
event's date plus the floor-in-days of the time difference to the latest
event.  (This reaches neither one day past the latest event's date, nor even
that date itself whenever the latest event's time of day is earlier than the
earliest event's.) -/
theorem dayListFrom_coverage (t1 tN d : ℤ) (h : t1 ≤ tN) :
    d ∈ dayListFrom t1 tN ↔
      dateOf t1 - 1 ≤ d ∧ d ≤ dateOf t1 + Int.fdiv (tN - t1) minutesPerDay := by
  have e1 : Int.fdiv t1 minutesPerDay = t1 / 1440 :=
    Int.fdiv_eq_ediv t1 (by decide)
  have e2 : Int.fdiv (tN - t1) minutesPerDay = (tN - t1) / 1440 :=
    Int.fdiv_eq_ediv (tN - t1) (by decide)
  simp only [dayListFrom, dateOf, e1, e2, List.mem_map, List.mem_range]
  constructor
  · rintro ⟨x, hx, rfl⟩
    omega
  · rintro ⟨hlo, hhi⟩
    refine ⟨(d - (t1 / 1440 - 1)).toNat, ?_, ?_⟩ <;> omega

/-- C4 witness: day 0 is a processed bucket for the concrete boundary pair of
events. -/
theorem dayListFrom_coverage_witness : (0 : ℤ) ∈ dayListFrom 1380 1500 :=
  (dayListFrom_coverage 1380 1500 0 (by decide)).mpr (by decide)

/-- Every entry of an updated dict is the new binding or an old entry. -/
theorem mem_odInsert (d : Ledger) (k : ℤ) (v : EventData) :
    ∀ kv' ∈ odInsert d k v, kv' = (k, v) ∨ kv' ∈ d := by
  induction d with
  | nil =>
    intro kv' h
    simp only [odInsert, List.mem_singleton] at h
    exact Or.inl h
  | cons kv rest ih =>
    intro kv' h
    by_cases hk : kv.1 = k
    · simp only [odInsert, if_pos hk, List.mem_cons] at h
      rcases h with h | h
      · exact Or.inl h
      · exact Or.inr (List.mem_cons_of_mem kv h)
    · simp only [odInsert, if_neg hk, List.mem_cons] at h
      rcases h with h | h
      · exact Or.inr (h ▸ List.mem_cons_self kv rest)
      · rcases ih kv' h with h1 | h1
        · exact Or.inl h1
        · exact Or.inr (List.mem_cons_of_mem kv h1)

/-- An entry under a different key survives a dict update. -/
theorem odInsert_mem_of_ne (d : Ledger) (k : ℤ) (v : EventData) (k0 : ℤ) (v0 : EventData)
    (hmem : (k0, v0) ∈ d) (hne : k0 ≠ k) : (k0, v0) ∈ odInsert d k v := by
  induction d with
  | nil => cases hmem
  | cons kv rest ih =>
    rcases List.mem_cons.mp hmem with h | h
    · by_cases hk : kv.1 = k
      · exact absurd (by rw [← h] at hk; exact hk) hne
      · rw [odInsert, if_neg hk, h]
        exact List.mem_cons_self kv (odInsert rest k v)
    · by_cases hk : kv.1 = k
      · rw [odInsert, if_pos hk]
        exact List.mem_cons_of_mem _ h
      · rw [odInsert, if_neg hk]
        exact List.mem_cons_of_mem _ (ih h)

/-- Updating an existing key leaves the key list unchanged. -/
theorem keys_odInsert_of_mem (d : Ledger) (k : ℤ) (v : EventData)
    (h : k ∈ d.map Prod.fst) : (odInsert d k v).map Prod.fst = d.map Prod.fst := by
  induction d with
  | nil => cases h
  | cons kv rest ih =>
    by_cases hk : kv.1 = k
    · simp [odInsert, if_pos hk, hk]
    · have h' : k ∈ rest.map Prod.fst := by
        rcases List.mem_map.mp h with ⟨kv', hkv', he⟩
        rcases List.mem_cons.mp hkv' with h1 | h1
        · exact absurd (h1 ▸ he) hk
        · exact List.mem_map.mpr ⟨kv', h1, he⟩
      simp [odInsert, if_neg hk, ih h']

/-- Updating through keys all different from `k` walks past them and appends. -/
theorem odInsert_append_left (s r : Ledger) (k : ℤ) (v : EventData)
    (h : ∀ kv ∈ s, kv.1 ≠ k) : odInsert (s ++ r) k v = s ++ odInsert r k v := by
  induction s with
  | nil => rfl
  | cons kv rest ih =>
    have hk : kv.1 ≠ k := h kv (List.mem_cons_self kv rest)
    simp only [List.cons_append, odInsert, if_neg hk, List.cons.injEq, true_and]
    exact ih (fun kv' hm => h kv' (List.mem_cons_of_mem kv hm))

/-- Updating an absent key appends the binding. -/
theorem odInsert_eq_append (d : Ledger) (k : ℤ) (v : EventData)
    (h : ∀ kv ∈ d, kv.1 ≠ k) : odInsert d k v = d ++ [(k, v)] := by
  have := odInsert_append_left d [] k v h
  simpa using this

/-- The key list of an update: unchanged for a present key, extended by `k`
for an absent one; in both cases key distinctness is preserved. -/
theorem keys_odInsert_nodup (d : Ledger) (k : ℤ) (v : EventData)
    (h : (d.map Prod.fst).Nodup) : ((odInsert d k v).map Prod.fst).Nodup := by
  by_cases hmem : k ∈ d.map Prod.fst
  · rw [keys_odInsert_of_mem d k v hmem]
    exact h
  · have hne : ∀ kv ∈ d, kv.1 ≠ k := by
      intro kv hkv he
      exact hmem (List.mem_map.mpr ⟨kv, hkv, he⟩)
    rw [odInsert_eq_append d k v hne]
    simp only [List.map_append, List.map_cons, List.map_nil]
    rw [List.nodup_append]
    refine ⟨h, List.nodup_singleton k, ?_⟩
    intro a ha hb
    rw [List.mem_singleton] at hb
    exact hmem (hb ▸ ha)

/-- A guarded fold is the fold of the filtered list (`keepOld`/`addNew` loop
bodies). -/
theorem foldl_guard_eq_filter (l : Ledger) (q : ℤ × EventData → Prop) [DecidablePred q]
    (f : Ledger → ℤ × EventData → Ledger) :
    ∀ acc : Ledger, l.foldl (fun a kv => if q kv then f a kv else a) acc =
      (l.filter (fun kv => decide (q kv))).foldl f acc := by
  induction l with
  | nil => intro acc; rfl
  | cons kv rest ih =>
    intro acc
    by_cases hq : q kv
    · simp [List.filter_cons, hq, ih]
    · simp [List.filter_cons, hq, ih]

/-- Folding dict insertion over entries with fresh, pairwise distinct keys
reproduces the list. -/
theorem foldl_odInsert_eq_append (l : Ledger) :
    ∀ acc : Ledger, (((acc ++ l).map Prod.fst).Nodup) →
      l.foldl (fun a kv => odInsert a kv.1 kv.2) acc = acc ++ l := by
  induction l with
  | nil => intro acc _; simp
  | cons kv rest ih =>
    intro acc hnd
    have hfresh : ∀ kv' ∈ acc, kv'.1 ≠ kv.1 := by
      intro kv' hkv' he
      have hsplit : ((acc ++ kv :: rest).map Prod.fst).Nodup := hnd
      rw [List.map_append, List.nodup_append] at hsplit
      exact hsplit.2.2 (List.mem_map.mpr ⟨kv', hkv', rfl⟩) (by simp [he])
    have hstep : odInsert acc kv.1 kv.2 = acc ++ [kv] := by
      rw [odInsert_eq_append acc kv.1 kv.2 hfresh]
    have hnd' : (((acc ++ [kv]) ++ rest).map Prod.fst).Nodup := by
      simpa [List.append_assoc] using hnd
    simp only [List.foldl_cons, hstep]
    rw [ih (acc ++ [kv]) hnd']
    simp [List.append_assoc]

/-- `keepOld` is the stale-filtered previous ledger folded into an empty
dict. -/
theorem keepOld_eq_filter_fold (today maxage : ℤ) (p : Ledger) :
    keepOld today maxage p =
      (p.filter (fun kv => decide (today - dateOf kv.1 > maxage))).foldl
        (fun a kv => odInsert a kv.1 kv.2) [] :=
  foldl_guard_eq_filter p (fun kv => today - dateOf kv.1 > maxage) _ []

/-- `addNew` is the recent-filtered new feed folded into the accumulator. -/
theorem addNew_eq_filter_fold (today maxage : ℤ) (newevents acc : Ledger) :
    addNew today maxage newevents acc =
      (newevents.filter (fun kv => decide (today - dateOf kv.1 ≤ maxage))).foldl
        (fun a kv => odInsert a kv.1 kv.2) acc :=
  foldl_guard_eq_filter newevents (fun kv => today - dateOf kv.1 ≤ maxage) _ acc

/-- Keys of a filtered ledger stay pairwise distinct. -/
theorem nodup_keys_filter (p : Ledger) (q : ℤ × EventData → Bool)
    (h : (p.map Prod.fst).Nodup) : ((p.filter q).map Prod.fst).Nodup :=
  ((List.filter_sublist p).map Prod.fst).nodup h

/-- With pairwise distinct keys, `keepOld` is exactly the stale-filtered
previous ledger. -/
theorem keepOld_eq_filter (today maxage : ℤ) (p : Ledger)
    (h : (p.map Prod.fst).Nodup) :
    keepOld today maxage p =
      p.filter (fun kv => decide (today - dateOf kv.1 > maxage)) := by
  rw [keepOld_eq_filter_fold]
  exact foldl_odInsert_eq_append _ []
    (by simpa using nodup_keys_filter p _ h)

/-- Entries of an insertion fold come from the accumulator or the folded
list. -/
theorem mem_foldl_odInsert (l : Ledger) :
    ∀ (acc : Ledger) (kv' : ℤ × EventData),
      kv' ∈ l.foldl (fun a kv => odInsert a kv.1 kv.2) acc → kv' ∈ acc ∨ kv' ∈ l := by
  induction l with
  | nil => intro acc kv' h; exact Or.inl h
  | cons kv rest ih =>
    intro acc kv' h
    simp only [List.foldl_cons] at h
    rcases ih _ kv' h with h1 | h1
    · rcases mem_odInsert acc kv.1 kv.2 kv' h1 with h2 | h2
      · exact Or.inr (by rw [h2]; exact List.mem_cons_self kv rest)
      · exact Or.inl h2
    · exact Or.inr (List.mem_cons_of_mem kv h1)

/-- Key distinctness is preserved by an insertion fold. -/
theorem nodup_keys_foldl_odInsert (l : Ledger) :
    ∀ acc : Ledger, ((acc.map Prod.fst).Nodup) →
      (((l.foldl (fun a kv => odInsert a kv.1 kv.2) acc).map Prod.fst).Nodup) := by
  induction l with
  | nil => intro acc h; exact h
  | cons kv rest ih =>
    intro acc h
    simp only [List.foldl_cons]
    exact ih _ (keys_odInsert_nodup acc kv.1 kv.2 h)

/-- Every entry kept by `keepOld` comes from the previous ledger and lies
strictly beyond the retention window. -/
theorem keepOld_mem (today maxage : ℤ) (p : Ledger) :
    ∀ kv ∈ keepOld today maxage p, kv ∈ p ∧ today - dateOf kv.1 > maxage := by
  intro kv h
  rw [keepOld_eq_filter_fold] at h
  rcases mem_foldl_odInsert _ [] kv h with h1 | h1
  · cases h1
  · have h2 := List.mem_filter.mp h1
    exact ⟨h2.1, of_decide_eq_true h2.2⟩

/-- `keepOld` always produces pairwise distinct keys. -/
theorem keepOld_keys_nodup (today maxage : ℤ) (p : Ledger) :
    ((keepOld today maxage p).map Prod.fst).Nodup := by
  rw [keepOld_eq_filter_fold]
  exact nodup_keys_foldl_odInsert _ [] (by simp)

/-- Unfolding one step of the `addNew` loop. -/
theorem addNew_cons (today maxage : ℤ) (kv : ℤ × EventData) (rest : List (ℤ × EventData))
    (acc : Ledger) :
    addNew today maxage (kv :: rest) acc =
      addNew today maxage rest
        (if today - dateOf kv.1 ≤ maxage then odInsert acc kv.1 kv.2 else acc) := rfl

/-- Overlaying recent new events on a ledger made of an all-stale block
followed by an all-recent block only touches the recent block, so filtering
for stale entries afterwards recovers exactly the stale block. -/
theorem keepOld_addNew_split (today maxage : ℤ) (newevents : Ledger) :
    ∀ s r : Ledger, (((s ++ r).map Prod.fst).Nodup) →
      (∀ kv ∈ s, today - dateOf kv.1 > maxage) →
      (∀ kv ∈ r, ¬(today - dateOf kv.1 > maxage)) →
      keepOld today maxage (addNew today maxage newevents (s ++ r)) = s := by
  induction newevents with
  | nil =>
    intro s r hnd hs hr
    show keepOld today maxage (s ++ r) = s
    rw [keepOld_eq_filter today maxage _ hnd, List.filter_append]
    rw [List.filter_eq_self.mpr (fun kv hm => decide_eq_true (hs kv hm))]
    rw [List.filter_eq_nil_iff.mpr (fun kv hm => by simpa using hr kv hm)]
    simp
  | cons kv rest ih =>
    intro s r hnd hs hr
    by_cases hrec : today - dateOf kv.1 ≤ maxage
    · rw [addNew_cons, if_pos hrec]
      have hks : ∀ kv' ∈ s, kv'.1 ≠ kv.1 := by
        intro kv' hm he
        have := hs kv' hm
        rw [he] at this
        omega
      rw [odInsert_append_left s r kv.1 kv.2 hks]
      refine ih s (odInsert r kv.1 kv.2) ?_ hs ?_
      · rw [← odInsert_append_left s r kv.1 kv.2 hks]
        exact keys_odInsert_nodup _ _ _ hnd
      · intro kv' hm
        rcases mem_odInsert r kv.1 kv.2 kv' hm with h2 | h2
        · rw [h2]
          show ¬(today - dateOf kv.1 > maxage)
          omega
        · exact hr kv' h2
    · rw [addNew_cons, if_neg hrec]
      exact ih s r hnd hs hr

/-- C5 (amended): when a previous ledger exists, merging the same new events
a second time into the ledger produced by the first merge yields exactly the
same ledger as merging once. -/
theorem updatedata_idempotent_with_previous_ledger (p newevents : Ledger)
    (today maxage : ℤ) :
    updatedata newevents (some (updatedata newevents (some p) today maxage)) today maxage =
      updatedata newevents (some p) today maxage := by
  show addNew today maxage newevents
      (keepOld today maxage (addNew today maxage newevents (keepOld today maxage p))) =
    addNew today maxage newevents (keepOld today maxage p)
  have hkey : keepOld today maxage
      (addNew today maxage newevents (keepOld today maxage p)) =
      keepOld today maxage p := by
    have h := keepOld_addNew_split today maxage newevents (keepOld today maxage p) []
      (by simpa using keepOld_keys_nodup today maxage p)
      (fun kv hm => (keepOld_mem today maxage p kv hm).2)
      (by simp)
    simpa using h
  rw [hkey]

/-- Keys of the merge result come either from the overlaid accumulator or
from a new event within the retention window. -/
theorem addNew_keys_sub (today maxage : ℤ) (newevents : Ledger) :
    ∀ (acc : Ledger) (k : ℤ), k ∈ (addNew today maxage newevents acc).map Prod.fst →
      k ∈ acc.map Prod.fst ∨ (∃ v, (k, v) ∈ newevents ∧ today - dateOf k ≤ maxage) := by
  induction newevents with
  | nil => intro acc k h; exact Or.inl h
  | cons kv rest ih =>
    intro acc k h
    rw [addNew_cons] at h
    by_cases hrec : today - dateOf kv.1 ≤ maxage
    · rw [if_pos hrec] at h
      rcases ih _ k h with h1 | ⟨v, hv, hvrec⟩
      · rcases List.mem_map.mp h1 with ⟨kv', hkv', rfl⟩
        rcases mem_odInsert acc kv.1 kv.2 kv' hkv' with h2 | h2
        · subst h2
          exact Or.inr ⟨kv.2, List.mem_cons_self kv rest, hrec⟩
        · exact Or.inl (List.mem_map.mpr ⟨kv', h2, rfl⟩)
      · exact Or.inr ⟨v, List.mem_cons_of_mem kv hv, hvrec⟩
    · rw [if_neg hrec] at h
      rcases ih acc k h with h1 | ⟨v, hv, hvrec⟩
      · exact Or.inl h1
      · exact Or.inr ⟨v, List.mem_cons_of_mem kv hv, hvrec⟩

/-- An accumulator entry strictly older than the window survives the overlay
of new events untouched. -/
theorem addNew_mem_of_stale (today maxage : ℤ) (newevents : Ledger) :
    ∀ (acc : Ledger) (k0 : ℤ) (v0 : EventData), (k0, v0) ∈ acc →
      today - dateOf k0 > maxage → (k0, v0) ∈ addNew today maxage newevents acc := by
  induction newevents with
  | nil => intro acc k0 v0 h _; exact h
  | cons kv rest ih =>
    intro acc k0 v0 h hst
    rw [addNew_cons]
    by_cases hrec : today - dateOf kv.1 ≤ maxage
    · rw [if_pos hrec]
      refine ih _ k0 v0 (odInsert_mem_of_ne acc kv.1 kv.2 k0 v0 h ?_) hst
      intro he
      rw [he] at hst
      omega
    · rw [if_neg hrec]
      exact ih acc k0 v0 h hst

/-- An entry of the previous ledger strictly older than the window is kept by
the first merge loop (previous ledgers loaded from JSON have pairwise
distinct keys). -/
theorem keepOld_mem_of_stale (today maxage : ℤ) (p : Ledger) (k : ℤ) (v : EventData)
    (hmem : (k, v) ∈ p) (hnd : (p.map Prod.fst).Nodup)
    (hst : today - dateOf k > maxage) : (k, v) ∈ keepOld today maxage p := by
  rw [keepOld_eq_filter today maxage p hnd]
  exact List.mem_filter.mpr ⟨hmem, decide_eq_true hst⟩

/-- C6 (amended): in the merge, a previous-ledger entry dated *exactly*
`maxage` days before today is dropped when absent from the new feed (only
strictly older entries are kept); an entry one day further in the past is
retained; and a new-feed event strictly older than the window contributes no
key to the merge result. -/
theorem updatedata_retention_boundary :
    (∀ (prev newevents : Ledger) (today maxage k : ℤ),
      today - dateOf k = maxage → (∀ kv ∈ newevents, kv.1 ≠ k) →
      k ∉ (updatedata newevents (some prev) today maxage).map Prod.fst) ∧
    (∀ (prev newevents : Ledger) (today maxage k : ℤ) (v : EventData),
      (k, v) ∈ prev → (prev.map Prod.fst).Nodup → today - dateOf k > maxage →
      (k, v) ∈ updatedata newevents (some prev) today maxage) ∧
    (∀ (prev newevents : Ledger) (today maxage k : ℤ),
      today - dateOf k > maxage → k ∉ prev.map Prod.fst →
      k ∉ (updatedata newevents (some prev) today maxage).map Prod.fst) := by
  refine ⟨?_, ?_, ?_⟩
  · intro prev newevents today maxage k hb hnew hk
    rcases addNew_keys_sub today maxage newevents _ k hk with h1 | ⟨v, hv, hvrec⟩
    · rcases List.mem_map.mp h1 with ⟨kv', hkv', he⟩
      have h2 := (keepOld_mem today maxage prev kv' hkv').2
      rw [he] at h2
      omega
    · exact hnew (k, v) hv rfl
  · intro prev newevents today maxage k v hmem hnd hst
    exact addNew_mem_of_stale today maxage newevents _ k v
      (keepOld_mem_of_stale today maxage prev k v hmem hnd hst) hst
  · intro prev newevents today maxage k hst hkp hk
    rcases addNew_keys_sub today maxage newevents _ k hk with h1 | ⟨v, hv, hvrec⟩
    · rcases List.mem_map.mp h1 with ⟨kv', hkv', he⟩
      exact hkp (List.mem_map.mpr ⟨kv', (keepOld_mem today maxage prev kv' hkv').1, he⟩)
    · omega

/-- C6 witness: concrete boundary instances with `today = 40`, `maxage = 30`
(dates in days: minute 14400 is day 10, minute 0 is day 0). -/
theorem updatedata_retention_boundary_witness :
    ((14400 : ℤ) ∉ (updatedata [] (some [(14400, ev0)]) 40 30).map Prod.fst) ∧
    ((0, ev0) ∈ updatedata [] (some [(0, ev0)]) 40 30) ∧
    ((0 : ℤ) ∉ (updatedata [(0, ev1)] (some []) 40 30).map Prod.fst) :=
  ⟨updatedata_retention_boundary.1 [(14400, ev0)] [] 40 30 14400 (by decide) (by simp),
   updatedata_retention_boundary.2.1 [(0, ev0)] [] 40 30 0 ev0 (by decide) (by decide)
     (by decide),
   updatedata_retention_boundary.2.2 [] [(0, ev1)] 40 30 0 (by decide) (by simp)⟩

/-- As long as the *maxsplit* fuel is not exhausted, every piece produced by
`reSplit` consists solely of non-separator characters. -/
theorem reSplit_all_nonsep (p : Char → Bool) :
    ∀ (fuel : ℕ) (l : List Char), (reSplit p fuel l).length ≤ fuel →
      ∀ tok ∈ reSplit p fuel l, tok.all (fun c => !p c) = true := by
  intro fuel
  induction fuel with
  | zero =>
    intro l h tok hm
    simp [reSplit] at h
  | succ n ih =>
    intro l h tok hm
    rw [reSplit] at h hm
    cases hrest : l.dropWhile (fun c => !p c) with
    | nil =>
      simp only [hrest] at hm
      rw [List.mem_singleton] at hm
      subst hm
      exact List.all_eq_true.mpr (fun c hc => List.mem_takeWhile_imp (p := fun c => !p c) hc)
    | cons c cs =>
      simp only [hrest] at h hm
      rcases List.mem_cons.mp hm with rfl | hm2
      · exact List.all_eq_true.mpr (fun c hc => List.mem_takeWhile_imp (p := fun c => !p c) hc)
      · refine ih ((c :: cs).dropWhile p) ?_ tok hm2
        simpa using h

/-- Inversion of the carpool branch of `icsparse_event`: a carpool result
means the tokenization produced the magic word, then the driver, then exactly
the passenger list. -/
theorem icsparse_event_carpool_inv (cfg : Config) (summary location : String) (t : ℤ)
    (d : String) (ps : List String) (o : String) (c : ℚ)
    (hp : icsparse_event cfg summary location t = .ok (.carpool d ps o c)) :
    ∃ w0, icsparse_event_topic_split summary RE_TOPIC_SPLIT_CARPOOL = w0 :: d :: ps := by
  rw [icsparse_event] at hp
  split at hp
  · cases hp
  · split at hp
    · rename_i w0 driver passengers heq
      split at hp
      · simp only [] at hp
        split at hp
        · simp only [Except.ok.injEq, EventData.carpool.injEq] at hp
          obtain ⟨hd, hps, -, -⟩ := hp
          subst hd
          subst hps
          exact ⟨w0, heq⟩
        · split at hp
          · simp at hp
          · simp at hp
      · simp only [] at hp
        split at hp
        · simp only [Except.ok.injEq, EventData.carpool.injEq] at hp
          obtain ⟨hd, hps, -, -⟩ := hp
          subst hd
          subst hps
          exact ⟨w0, heq⟩
        · split at hp
          · simp at hp
          · simp at hp
    · split at hp
      · simp only [] at hp
        split at hp
        · simp at hp
        · split at hp
          · simp at hp
          · simp at hp
      · simp only [] at hp
        split at hp
        · simp at hp
        · split at hp
          · simp at hp
          · simp at hp

/-- C8 (amended): unless a title needs more than the 32 splits that the
accidentally-passed `re.UNICODE` *maxsplit* allows, every passenger token the
carpool parse returns consists solely of ASCII letters — so a numeric-only
token such as "+1" is never captured as a passenger (its characters are all
separators and it is dropped). -/
theorem carpool_passenger_tokens_all_letters (cfg : Config) (summary location : String)
    (t : ℤ) (d : String) (ps : List String) (o : String) (c : ℚ)
    (hfuel : (reSplit RE_TOPIC_SPLIT_CARPOOL 32 (lowerL summary.toList)).length ≤ 32)
    (hp : icsparse_event cfg summary location t = .ok (.carpool d ps o c)) :
    ∀ tok ∈ ps, tok.toList.all Char.isAlpha = true := by
  intro tok htok
  obtain ⟨w0, heq⟩ := icsparse_event_carpool_inv cfg summary location t d ps o c hp
  have hmem : tok ∈ icsparse_event_topic_split summary RE_TOPIC_SPLIT_CARPOOL := by
    rw [heq]
    exact List.mem_cons_of_mem _ (List.mem_cons_of_mem _ htok)
  rw [icsparse_event_topic_split] at hmem
  have hmem2 := (List.mem_filter.mp hmem).1
  rcases List.mem_map.mp hmem2 with ⟨cs, hcs, rfl⟩
  have hall := reSplit_all_nonsep RE_TOPIC_SPLIT_CARPOOL 32 (lowerL summary.toList)
    hfuel cs hcs
  show (String.mk cs).toList.all Char.isAlpha = true
  have hts : (String.mk cs).toList = cs := rfl
  rw [hts]
  simpa [RE_TOPIC_SPLIT_CARPOOL, Bool.not_not] using hall

/-- C8 witness: the passenger token of `"Carpool peter martin +1"` is all
letters. -/
theorem carpool_passenger_tokens_all_letters_witness :
    "martin".toList.all Char.isAlpha = true :=
  carpool_passenger_tokens_all_letters cfg0 "Carpool peter martin +1" "x" 480
    "peter" ["martin"] "UNKNOWN-EVERDINGEN" CFG_TRIPCOST (by decide) rfl "martin"
    (by decide)

/-- C9 (amended): the driver of a parsed carpool record is never also a
passenger *provided* the tokenized title has no repeated token — the parser
itself performs no such exclusion, it merely takes token 1 as driver and the
rest as passengers. -/
theorem carpool_driver_not_passenger_of_nodup (cfg : Config) (summary location : String)
    (t : ℤ) (d : String) (ps : List String) (o : String) (c : ℚ)
    (hnd : (icsparse_event_topic_split summary RE_TOPIC_SPLIT_CARPOOL).Nodup)
    (hp : icsparse_event cfg summary location t = .ok (.carpool d ps o c)) :
    d ∉ ps := by
  obtain ⟨w0, heq⟩ := icsparse_event_carpool_inv cfg summary location t d ps o c hp
  rw [heq] at hnd
  exact (List.nodup_cons.mp (List.nodup_cons.mp hnd).2).1

/-- C9 witness: for the concrete title `"carpool peter martin"` the driver is
not among the passengers. -/
theorem carpool_driver_not_passenger_of_nodup_witness :
    "peter" ∉ (["martin"] : List String) :=
  carpool_driver_not_passenger_of_nodup cfg0 "carpool peter martin" "x" 480
    "peter" ["martin"] "UNKNOWN-EVERDINGEN" CFG_TRIPCOST (by decide) rfl

/-- Two ordered timestamps on the same calendar day are less than one day
apart, so the floor of their difference in days is zero. -/
theorem fdiv_sub_eq_zero_of_same_date (t1 t2 : ℤ) (hd : dateOf t1 = dateOf t2)
    (hlt : t1 < t2) : Int.fdiv (t2 - t1) minutesPerDay = 0 := by
  have e0 : Int.fdiv t1 minutesPerDay = t1 / 1440 := Int.fdiv_eq_ediv t1 (by decide)
  have e1 : Int.fdiv t2 minutesPerDay = t2 / 1440 := Int.fdiv_eq_ediv t2 (by decide)
  have e2 : Int.fdiv (t2 - t1) minutesPerDay = (t2 - t1) / 1440 :=
    Int.fdiv_eq_ediv _ (by decide)
  rw [dateOf, dateOf, e0, e1] at hd
  rw [e2]
  omega

/-- For two ordered events of one day the bucket list is that day preceded by
the day before. -/
theorem dayListFrom_same_date (t1 t2 : ℤ) (hd : dateOf t1 = dateOf t2) (hlt : t1 < t2) :
    dayListFrom t1 t2 = [dateOf t1 - 1, dateOf t1] := by
  rw [dayListFrom, fdiv_sub_eq_zero_of_same_date t1 t2 hd hlt]
  have hr : ((0 : ℤ) + 2).toNat = 2 := rfl
  rw [hr]
  have hr2 : List.range 2 = [0, 1] := rfl
  rw [hr2]
  simp

/-- Sorting a strictly ordered pair of events, in either input order. -/
theorem sortByTime_pair_lt (e1 e2 : CEvent) (h : e1.time < e2.time) :
    sortByTime [e1, e2] = [e1, e2] ∧ sortByTime [e2, e1] = [e1, e2] := by
  have hle : e1.time ≤ e2.time := le_of_lt h
  have hnle : ¬ e2.time ≤ e1.time := not_le.mpr h
  exact ⟨by simp [sortByTime, insertByTime, hle], by simp [sortByTime, insertByTime, hnle]⟩

/-- C3: for an input of exactly two carpool events of the same driver on the
same local date, with origins `a` (earlier) and `b` (later), `find_dest`
appends `[a, b]` to the earlier event (destination `b`) and `[b, a]` to the
later one (destination `a`) — and it only pairs within a single driver and a
single day: two same-day events of different drivers receive no assignment at
all. -/
theorem find_dest_round_trip_pairing :
    (∀ (e1 e2 : CEvent) (l : List CEvent), (l = [e1, e2] ∨ l = [e2, e1]) →
      e1.driver = e2.driver → e1.time < e2.time → dateOf e1.time = dateOf e2.time →
      find_dest l =
        some [(e1, some (e1.origin, e2.origin)), (e2, some (e2.origin, e1.origin))]) ∧
    (∀ e1 e2 : CEvent, e1.driver ≠ e2.driver → e1.time < e2.time →
      dateOf e1.time = dateOf e2.time →
      find_dest [e1, e2] = some [(e1, none), (e2, none)]) := by
  constructor
  · intro e1 e2 l hin hdr hlt hdate
    have hsort : sortByTime l = [e1, e2] := by
      rcases hin with rfl | rfl
      · exact (sortByTime_pair_lt e1 e2 hlt).1
      · exact (sortByTime_pair_lt e1 e2 hlt).2
    have hdays : dayListFrom e1.time e2.time = [dateOf e1.time - 1, dateOf e1.time] :=
      dayListFrom_same_date e1.time e2.time hdate hlt
    have hb1 : (dateOf e1.time == dateOf e1.time - 1) = false := by
      simp only [beq_eq_false_iff_ne]
      omega
    have hb2 : (dateOf e2.time == dateOf e1.time - 1) = false := by
      simp only [beq_eq_false_iff_ne]
      omega
    have hb3 : (dateOf e2.time == dateOf e1.time) = true := by
      rw [hdate]
      exact beq_self_eq_true _
    have hb4 : (e2.driver == e1.driver) = true := by
      rw [hdr]
      exact beq_self_eq_true _
    simp only [find_dest, hsort, List.head?_cons, List.getLast?_cons_cons,
      List.getLast?_singleton, hdays, List.length_cons, List.length_nil, List.zip,
      List.zipWith, List.foldl_cons, List.foldl_nil, List.filter_cons, List.filter_nil,
      uniqueDrivers, pairsForDriver, List.map_cons, List.map_nil, hb1, hb2, hb3, hb4,
      beq_self_eq_true, List.find?]
    simp [hb3, hb4, hdr, List.mem_singleton]
  · intro e1 e2 hdr hlt hdate
    have hsort : sortByTime [e1, e2] = [e1, e2] := (sortByTime_pair_lt e1 e2 hlt).1
    have hdays : dayListFrom e1.time e2.time = [dateOf e1.time - 1, dateOf e1.time] :=
      dayListFrom_same_date e1.time e2.time hdate hlt
    have hb1 : (dateOf e1.time == dateOf e1.time - 1) = false := by
      simp only [beq_eq_false_iff_ne]
      omega
    have hb2 : (dateOf e2.time == dateOf e1.time - 1) = false := by
      simp only [beq_eq_false_iff_ne]
      omega
    have hb3 : (dateOf e2.time == dateOf e1.time) = true := by
      rw [hdate]
      exact beq_self_eq_true _
    have hb4 : (e2.driver == e1.driver) = false := by
      simp only [beq_eq_false_iff_ne]
      exact fun h => hdr h.symm
    have hb5 : (e1.driver == e2.driver) = false := by
      simp only [beq_eq_false_iff_ne]
      exact hdr
    simp only [find_dest, hsort, List.head?_cons, List.getLast?_cons_cons,
      List.getLast?_singleton, hdays, List.length_cons, List.length_nil, List.zip,
      List.zipWith, List.foldl_cons, List.foldl_nil, List.filter_cons, List.filter_nil,
      uniqueDrivers, pairsForDriver, List.map_cons, List.map_nil, hb1, hb2, hb3, hb4,
      beq_self_eq_true, List.find?]
    have hdr2 : e2.driver ≠ e1.driver := fun h => hdr h.symm
    simp [hb3, hb4, hb5, hdr, hdr2, List.mem_singleton]

/-- C3 witness: the concrete morning/afternoon round trip of one driver. -/
theorem find_dest_round_trip_pairing_witness :
    find_dest [⟨"peter", ["martin"], "nieuwegein", 480⟩,
               ⟨"peter", ["martin"], "houten", 1020⟩] =
      some [(⟨"peter", ["martin"], "nieuwegein", 480⟩, some ("nieuwegein", "houten")),
            (⟨"peter", ["martin"], "houten", 1020⟩, some ("houten", "nieuwegein"))] :=
  find_dest_round_trip_pairing.1 ⟨"peter", ["martin"], "nieuwegein", 480⟩
    ⟨"peter", ["martin"], "houten", 1020⟩ _ (Or.inl rfl) rfl (by decide) (by decide)

end Ics2csv
